import Mathlib

/-!
Verification of the WebOTP zero-knowledge vault core against its source.

Shallow embedding conventions used throughout this file:
* ISO-8601 timestamp strings (`createdAt`, `updatedAt`, `deletedAt`) are
  modelled as `Nat`.  For timestamps of the fixed ISO format, JavaScript's
  lexicographic string comparison coincides with chronological (numeric)
  order, and the JavaScript-falsy empty string `""` is modelled by `0`
  (so `x || d` becomes `if x = 0 then d else x`, and truthiness of an
  optional timestamp is `isSome` together with `≠ 0`).
* JavaScript `Map` lookup (where `Map.set` lets later entries overwrite
  earlier ones) is `jsGet`; JavaScript `Set` iteration order (first
  insertion wins) is `dedupFirstAux`.
* Fallible operations return `Option` / `Except`; the browser AEAD
  primitive and HMAC are abstract function parameters.
-/

/-- A vault record (`Account` in `src/lib/stores/vault.svelte.ts`).
Optional fields are `Option`; timestamps are `Nat` (see header). -/
structure Account where
  id : String
  issuer : String
  name : String
  secret : String
  algorithm : Option String
  digits : Option Nat
  period : Option Nat
  createdAt : Nat
  updatedAt : Nat
  deletedAt : Option Nat
deriving DecidableEq, Repr

/-- JavaScript truthiness of an optional timestamp: `undefined` and the
empty string (modelled by `0`) are falsy. -/
def tsTruthy : Option Nat → Bool
  | none => false
  | some t => t != 0

/-- JavaScript `x || d` on an optional timestamp (`0` models `""`). -/
def jsOrTime : Option Nat → Nat → Nat
  | none, d => d
  | some t, d => if t = 0 then d else t

/-- Lookup in the `Map` built by `map.set(a.id, a)` over the list:
a later entry with the same id overwrites an earlier one. -/
def jsGet : List Account → String → Option Account
  | [], _ => none
  | a :: as, i =>
    match jsGet as i with
    | some r => some r
    | none => if a.id = i then some a else none

/-- JavaScript `Set` insertion-order iteration: keep the first occurrence
of every element, in order.  `seen` holds the already-emitted elements. -/
def dedupFirstAux : List String → List String → List String
  | _, [] => []
  | seen, x :: xs =>
    if x ∈ seen then dedupFirstAux seen xs
    else x :: dedupFirstAux (x :: seen) xs

/-- The id set `allIds` built by `mergeVault` (base ids first, then new
local ids, then new remote ids, in first-insertion order). -/
def allIds (base locl remote : List Account) : List String :=
  dedupFirstAux []
    (base.map Account.id ++ locl.map Account.id ++ remote.map Account.id)

/-- Creation branch of `mergeVault` (`src/lib/merge`, branch 1): the id is
absent from base.  Mirrors the source's handling of a same-id creation on
both sides (later `updatedAt` wins, ties to remote) and the
`if (!latest.deletedAt)` tombstone filter. -/
def mergeCreate (localAcc remoteAcc : Option Account) : Option Account :=
  match localAcc, remoteAcc with
  | some l, some r =>
    let latest := if l.updatedAt > r.updatedAt then l else r
    if tsTruthy latest.deletedAt then none else some latest
  | some l, none => if tsTruthy l.deletedAt then none else some l
  | none, some r => if tsTruthy r.deletedAt then none else some r
  | none, none => none

/-- Branches 2 (deletion / trash-can) and 3 (modification) of `mergeVault`
for an id present in base, translated if-for-if from the source. -/
def mergeExisting (b : Account) (localAcc remoteAcc : Option Account) :
    Option Account :=
  let ld := localAcc.bind Account.deletedAt
  let rd := remoteAcc.bind Account.deletedAt
  if tsTruthy ld || tsTruthy rd then
    if tsTruthy ld && tsTruthy rd then
      if ld.getD 0 > rd.getD 0 then localAcc else remoteAcc
    else if tsTruthy ld then localAcc else remoteAcc
  else
    let baseTime := b.updatedAt
    let localTime := jsOrTime (localAcc.map Account.updatedAt) baseTime
    let remoteTime := jsOrTime (remoteAcc.map Account.updatedAt) baseTime
    match localAcc with
    | none => remoteAcc
    | some l =>
      if localTime > baseTime ∧ remoteTime > baseTime then
        if localTime > remoteTime then some l else remoteAcc
      else if localTime > baseTime then some l
      else if remoteTime > baseTime then remoteAcc
      else some b

/-- Resolution of a single id by `mergeVault`: `none` means nothing is
pushed to the merged list for this id. -/
def mergeId (base locl remote : List Account) (i : String) :
    Option Account :=
  match jsGet base i with
  | none => mergeCreate (jsGet locl i) (jsGet remote i)
  | some b => mergeExisting b (jsGet locl i) (jsGet remote i)

/-- The 3-way merge engine `mergeVault(base, local, remote)`
(`src/lib/merge`): iterate over the union of ids in insertion order and
resolve each id by the creation / deletion / modification branches. -/
def mergeVault (base locl remote : List Account) : List Account :=
  (allIds base locl remote).filterMap (mergeId base locl remote)

/-- Sample record builder used by concrete witnesses below. -/
def mkAcc (i : String) (u : Nat) (d : Option Nat) : Account :=
  ⟨i, "issuer", "name", "secret", none, none, none, 1, u, d⟩

example : mergeVault [] [mkAcc "a" 5 none] [] = [mkAcc "a" 5 none] := by
  decide

example : mergeVault [] [mkAcc "a" 5 (some 6)] [mkAcc "a" 5 (some 6)] = [] := by
  decide

example :
    mergeVault [mkAcc "a" 2 none] [mkAcc "a" 9 (some 9)] [mkAcc "a" 30 none]
      = [mkAcc "a" 9 (some 9)] := by
  decide

example :
    mergeVault [mkAcc "a" 2 none] [mkAcc "a" 3 none] [mkAcc "a" 4 none]
      = [mkAcc "a" 4 none] := by
  decide

theorem jsGet_id {l : List Account} {i : String} {a : Account}
    (h : jsGet l i = some a) : a.id = i := by
  induction l with
  | nil => simp [jsGet] at h
  | cons x xs ih =>
    simp only [jsGet] at h
    revert h
    cases hx : jsGet xs i with
    | some r => intro h; cases h; exact ih hx
    | none =>
      intro h
      by_cases hid : x.id = i
      · simp [hid] at h; cases h; exact hid
      · simp [hid] at h

theorem jsGet_mem {l : List Account} {i : String} {a : Account}
    (h : jsGet l i = some a) : a ∈ l := by
  induction l with
  | nil => simp [jsGet] at h
  | cons x xs ih =>
    simp only [jsGet] at h
    revert h
    cases hx : jsGet xs i with
    | some r => intro h; cases h; exact List.mem_cons_of_mem _ (ih hx)
    | none =>
      intro h
      by_cases hid : x.id = i
      · simp [hid] at h; cases h; exact List.mem_cons_self _ _
      · simp [hid] at h

theorem jsGet_eq_none {l : List Account} {i : String} :
    jsGet l i = none ↔ i ∉ l.map Account.id := by
  induction l with
  | nil => simp [jsGet]
  | cons x xs ih =>
    simp only [jsGet, List.map_cons, List.mem_cons]
    cases hx : jsGet xs i with
    | some r =>
      constructor
      · intro h; exact absurd h (by simp)
      · intro h
        exact absurd
          (Or.inr (List.mem_map.mpr ⟨r, jsGet_mem hx, jsGet_id hx⟩)) h
    | none =>
      by_cases hid : x.id = i
      · simp [hid, ih.mp hx]
      · simp [hid, ih.mp hx, Ne.symm hid]

theorem jsGet_isSome_of_mem {l : List Account} {a : Account} (h : a ∈ l) :
    ∃ r, jsGet l a.id = some r := by
  cases hx : jsGet l a.id with
  | some r => exact ⟨r, rfl⟩
  | none =>
    rw [jsGet_eq_none] at hx
    exact absurd (List.mem_map.mpr ⟨a, h, rfl⟩) hx

theorem mem_dedupFirstAux {a : String} :
    ∀ (xs seen : List String),
      a ∈ dedupFirstAux seen xs ↔ a ∈ xs ∧ a ∉ seen := by
  intro xs
  induction xs with
  | nil => intro seen; simp [dedupFirstAux]
  | cons x xs ih =>
    intro seen
    simp only [dedupFirstAux]
    by_cases hx : x ∈ seen
    · rw [if_pos hx, ih]
      constructor
      · rintro ⟨h1, h2⟩
        exact ⟨List.mem_cons_of_mem _ h1, h2⟩
      · rintro ⟨h1, h2⟩
        rcases List.mem_cons.mp h1 with h | h
        · exact absurd (h ▸ hx) h2
        · exact ⟨h, h2⟩
    · rw [if_neg hx]
      simp only [List.mem_cons, ih, List.mem_cons]
      constructor
      · rintro (h | ⟨h1, h2⟩)
        · exact ⟨Or.inl h, h ▸ hx⟩
        · exact ⟨Or.inr h1, fun hc => h2 (Or.inr hc)⟩
      · rintro ⟨h1, h2⟩
        rcases h1 with h | h
        · exact Or.inl h
        · by_cases hax : a = x
          · exact Or.inl hax
          · exact Or.inr ⟨h, fun hc => (by
              rcases hc with hc | hc
              · exact hax hc
              · exact h2 hc)⟩

theorem nodup_dedupFirstAux :
    ∀ (xs seen : List String), (dedupFirstAux seen xs).Nodup := by
  intro xs
  induction xs with
  | nil => intro seen; simp [dedupFirstAux]
  | cons x xs ih =>
    intro seen
    simp only [dedupFirstAux]
    by_cases hx : x ∈ seen
    · rw [if_pos hx]; exact ih seen
    · rw [if_neg hx]
      refine List.nodup_cons.mpr ⟨?_, ih (x :: seen)⟩
      intro hc
      exact ((mem_dedupFirstAux _ _).mp hc).2 (List.mem_cons_self _ _)

theorem mem_allIds {base locl remote : List Account} {i : String} :
    i ∈ allIds base locl remote ↔
      i ∈ base.map Account.id ∨ i ∈ locl.map Account.id ∨
        i ∈ remote.map Account.id := by
  unfold allIds
  rw [mem_dedupFirstAux]
  simp

@[simp] theorem tsTruthy_none : tsTruthy none = false := rfl

@[simp] theorem jsOrTime_none (d : Nat) : jsOrTime none d = d := rfl

theorem mergeCreate_range (la ra : Option Account) :
    mergeCreate la ra = la ∨ mergeCreate la ra = ra ∨
      mergeCreate la ra = none := by
  cases la with
  | none =>
    cases ra with
    | none => exact Or.inr (Or.inr rfl)
    | some r =>
      by_cases hd : tsTruthy r.deletedAt = true
      · exact Or.inr (Or.inr (by simp [mergeCreate, hd]))
      · exact Or.inr (Or.inl (by simp [mergeCreate, hd]))
  | some l =>
    cases ra with
    | none =>
      by_cases hd : tsTruthy l.deletedAt = true
      · exact Or.inr (Or.inr (by simp [mergeCreate, hd]))
      · exact Or.inl (by simp [mergeCreate, hd])
    | some r =>
      by_cases hu : l.updatedAt > r.updatedAt
      · by_cases hd : tsTruthy l.deletedAt = true
        · exact Or.inr (Or.inr (by simp [mergeCreate, hu, hd]))
        · exact Or.inl (by simp [mergeCreate, hu, hd])
      · by_cases hd : tsTruthy r.deletedAt = true
        · exact Or.inr (Or.inr (by simp [mergeCreate, hu, hd]))
        · exact Or.inr (Or.inl (by simp [mergeCreate, hu, hd]))

theorem mergeCreate_cases {la ra : Option Account} {m : Account}
    (h : mergeCreate la ra = some m) : la = some m ∨ ra = some m := by
  rcases mergeCreate_range la ra with hr | hr | hr
  · exact Or.inl (hr.symm.trans h)
  · exact Or.inr (hr.symm.trans h)
  · exact absurd (hr.symm.trans h) (by simp)

theorem mergeExisting_range (b : Account) (la ra : Option Account) :
    mergeExisting b la ra = la ∨ mergeExisting b la ra = ra ∨
      mergeExisting b la ra = some b := by
  cases la with
  | none =>
    cases ra with
    | none => exact Or.inl (by simp [mergeExisting, tsTruthy])
    | some r =>
      by_cases hd : tsTruthy r.deletedAt = true
      · exact Or.inr (Or.inl (by simp [mergeExisting, hd]))
      · exact Or.inr (Or.inl (by simp [mergeExisting, hd]))
  | some l =>
    cases ra with
    | none =>
      by_cases hd : tsTruthy l.deletedAt = true
      · exact Or.inl (by simp [mergeExisting, hd])
      · by_cases ht : b.updatedAt < jsOrTime (some l.updatedAt) b.updatedAt
        · exact Or.inl (by simp [mergeExisting, hd, ht])
        · exact Or.inr (Or.inr (by simp [mergeExisting, hd, ht]))
    | some r =>
      by_cases hdl : tsTruthy l.deletedAt = true
      · by_cases hdr : tsTruthy r.deletedAt = true
        · by_cases hcmp : l.deletedAt.getD 0 > r.deletedAt.getD 0
          · exact Or.inl (by simp [mergeExisting, hdl, hdr, hcmp])
          · exact Or.inr (Or.inl (by simp [mergeExisting, hdl, hdr, hcmp]))
        · exact Or.inl (by simp [mergeExisting, hdl, hdr])
      · by_cases hdr : tsTruthy r.deletedAt = true
        · exact Or.inr (Or.inl (by simp [mergeExisting, hdl, hdr]))
        · by_cases hl : b.updatedAt < jsOrTime (some l.updatedAt) b.updatedAt
          · by_cases hr : b.updatedAt < jsOrTime (some r.updatedAt) b.updatedAt
            · by_cases hc :
                jsOrTime (some r.updatedAt) b.updatedAt <
                  jsOrTime (some l.updatedAt) b.updatedAt
              · exact Or.inl (by simp [mergeExisting, hdl, hdr, hl, hr, hc])
              · exact Or.inr
                  (Or.inl (by simp [mergeExisting, hdl, hdr, hl, hr, hc]))
            · exact Or.inl (by simp [mergeExisting, hdl, hdr, hl, hr])
          · by_cases hr : b.updatedAt < jsOrTime (some r.updatedAt) b.updatedAt
            · exact Or.inr
                (Or.inl (by simp [mergeExisting, hdl, hdr, hl, hr]))
            · exact Or.inr
                (Or.inr (by simp [mergeExisting, hdl, hdr, hl, hr]))

theorem mergeExisting_cases {b : Account} {la ra : Option Account}
    {m : Account} (h : mergeExisting b la ra = some m) :
    m = b ∨ la = some m ∨ ra = some m := by
  rcases mergeExisting_range b la ra with hr | hr | hr
  · exact Or.inr (Or.inl (hr.symm.trans h))
  · exact Or.inr (Or.inr (hr.symm.trans h))
  · exact Or.inl (Option.some.inj (hr.symm.trans h)).symm

theorem mergeId_id {base locl remote : List Account} {i : String}
    {m : Account} (h : mergeId base locl remote i = some m) : m.id = i := by
  unfold mergeId at h
  revert h
  cases hb : jsGet base i with
  | none =>
    intro h
    rcases mergeCreate_cases h with hc | hc
    · exact jsGet_id hc
    · exact jsGet_id hc
  | some b =>
    intro h
    rcases mergeExisting_cases h with hc | hc | hc
    · exact hc ▸ jsGet_id hb
    · exact jsGet_id hc
    · exact jsGet_id hc

theorem mergeId_mem {base locl remote : List Account} {i : String}
    {m : Account} (h : mergeId base locl remote i = some m) :
    m ∈ base ∨ m ∈ locl ∨ m ∈ remote := by
  unfold mergeId at h
  revert h
  cases hb : jsGet base i with
  | none =>
    intro h
    rcases mergeCreate_cases h with hc | hc
    · exact Or.inr (Or.inl (jsGet_mem hc))
    · exact Or.inr (Or.inr (jsGet_mem hc))
  | some b =>
    intro h
    rcases mergeExisting_cases h with hc | hc | hc
    · exact Or.inl (hc ▸ jsGet_mem hb)
    · exact Or.inr (Or.inl (jsGet_mem hc))
    · exact Or.inr (Or.inr (jsGet_mem hc))

theorem nodup_ids_filterMap (f : String → Option Account) :
    ∀ ids : List String, ids.Nodup →
      (∀ i m, f i = some m → m.id = i) →
      ((ids.filterMap f).map Account.id).Nodup := by
  intro ids
  induction ids with
  | nil => simp
  | cons i ids ih =>
    intro hnd hf
    rcases List.nodup_cons.mp hnd with ⟨hni, hnd'⟩
    cases hfi : f i with
    | none => simpa [List.filterMap_cons, hfi] using ih hnd' hf
    | some m =>
      simp only [List.filterMap_cons, hfi, List.map_cons]
      refine List.nodup_cons.mpr ⟨?_, ih hnd' hf⟩
      intro hc
      rcases List.mem_map.mp hc with ⟨m', hm', hid⟩
      rcases List.mem_filterMap.mp hm' with ⟨i', hi', hfi'⟩
      have : m'.id = i' := hf i' m' hfi'
      have : m.id = i := hf i m hfi
      apply hni
      have hii : i = i' := by
        calc i = m.id := (hf i m hfi).symm
        _ = m'.id := hid.symm
        _ = i' := hf i' m' hfi'
      exact hii ▸ hi'

theorem mem_ids_of_jsGet {l : List Account} {i : String} {a : Account}
    (h : jsGet l i = some a) : i ∈ l.map Account.id :=
  List.mem_map.mpr ⟨a, jsGet_mem h, jsGet_id h⟩

theorem mem_merge_of_mergeId {base locl remote : List Account} {i : String}
    {m : Account} (hi : i ∈ allIds base locl remote)
    (h : mergeId base locl remote i = some m) :
    m ∈ mergeVault base locl remote :=
  List.mem_filterMap.mpr ⟨i, hi, h⟩

theorem mergeId_eq_existing {base locl remote : List Account} {i : String}
    {b : Account} (hb : jsGet base i = some b) :
    mergeId base locl remote i =
      mergeExisting b (jsGet locl i) (jsGet remote i) := by
  simp [mergeId, hb]

theorem mergeExisting_del_both {b la ra : Account}
    (h1 : tsTruthy la.deletedAt = true) (h2 : tsTruthy ra.deletedAt = true) :
    mergeExisting b (some la) (some ra) =
      if la.deletedAt.getD 0 > ra.deletedAt.getD 0 then some la
      else some ra := by
  by_cases hc : la.deletedAt.getD 0 > ra.deletedAt.getD 0
  · simp [mergeExisting, h1, h2, hc]
  · simp [mergeExisting, h1, h2, hc]

theorem mergeExisting_del_local_only {b la : Account} {ra : Option Account}
    (h1 : tsTruthy la.deletedAt = true)
    (h2 : tsTruthy (ra.bind Account.deletedAt) = false) :
    mergeExisting b (some la) ra = some la := by
  simp [mergeExisting, h1, h2]

theorem mergeExisting_del_remote_only {b : Account} {la : Option Account}
    {ra : Account}
    (h1 : tsTruthy (la.bind Account.deletedAt) = false)
    (h2 : tsTruthy ra.deletedAt = true) :
    mergeExisting b la (some ra) = some ra := by
  simp [mergeExisting, h1, h2]

theorem jsOrTime_eq_of_gt {t d : Nat} (h : t > d) :
    jsOrTime (some t) d = t := by
  have ht : t ≠ 0 := by omega
  simp [jsOrTime, ht]

theorem jsOrTime_not_gt {t d : Nat} (h : ¬ t > d) :
    ¬ jsOrTime (some t) d > d := by
  by_cases ht : t = 0
  · simp [jsOrTime, ht]
  · simp [jsOrTime, ht]
    omega

theorem mergeExisting_mod {b la ra : Account}
    (hdl : tsTruthy la.deletedAt = false)
    (hdr : tsTruthy ra.deletedAt = false) :
    mergeExisting b (some la) (some ra) =
      (if jsOrTime (some la.updatedAt) b.updatedAt > b.updatedAt ∧
          jsOrTime (some ra.updatedAt) b.updatedAt > b.updatedAt then
        if jsOrTime (some la.updatedAt) b.updatedAt >
            jsOrTime (some ra.updatedAt) b.updatedAt then some la
        else some ra
      else if jsOrTime (some la.updatedAt) b.updatedAt > b.updatedAt then
        some la
      else if jsOrTime (some ra.updatedAt) b.updatedAt > b.updatedAt then
        some ra
      else some b) := by
  simp [mergeExisting, hdl, hdr]

/-- C10: for every triple of input record sets, `mergeVault` yields at most
one record per identifier, and every output record is literally one of the
input records (member of base, local or remote, fields untouched). -/
theorem C10_merge_output_invariants (base locl remote : List Account) :
    ((mergeVault base locl remote).map Account.id).Nodup ∧
      ∀ m ∈ mergeVault base locl remote, m ∈ base ∨ m ∈ locl ∨ m ∈ remote := by
  constructor
  · exact nodup_ids_filterMap _ _ (nodup_dedupFirstAux _ _)
      (fun i m h => mergeId_id h)
  · intro m hm
    rcases List.mem_filterMap.mp hm with ⟨i, _, hfi⟩
    exact mergeId_mem hfi

theorem C10_merge_output_invariants_witness :
    ((mergeVault [] [mkAcc "a" 5 none] []).map Account.id).Nodup ∧
      (mkAcc "a" 5 none ∈ ([] : List Account) ∨
        mkAcc "a" 5 none ∈ [mkAcc "a" 5 none] ∨
        mkAcc "a" 5 none ∈ ([] : List Account)) :=
  ⟨(C10_merge_output_invariants [] [mkAcc "a" 5 none] []).1,
    (C10_merge_output_invariants [] [mkAcc "a" 5 none] []).2
      (mkAcc "a" 5 none) (by decide)⟩

/-- C1: tombstone priority.  If a record with identifier `i` exists in base
and carries a (truthy) tombstone in local or in remote, the merge result
keeps a tombstoned record for `i` whatever the other side's `updatedAt`
says; if both sides deleted it, the record with the strictly later
`deletedAt` is kept. -/
theorem C1_deletion_overrides (base locl remote : List Account) (i : String)
    (b : Account) (hb : jsGet base i = some b)
    (htomb :
      (∃ la, jsGet locl i = some la ∧ tsTruthy la.deletedAt = true) ∨
        (∃ ra, jsGet remote i = some ra ∧ tsTruthy ra.deletedAt = true)) :
    (∃ m, m ∈ mergeVault base locl remote ∧ m.id = i ∧
        tsTruthy m.deletedAt = true) ∧
      (∀ la ra dl dr, jsGet locl i = some la → jsGet remote i = some ra →
        la.deletedAt = some dl → ra.deletedAt = some dr →
        dl ≠ 0 → dr ≠ 0 →
        (dl > dr → la ∈ mergeVault base locl remote) ∧
          (dr > dl → ra ∈ mergeVault base locl remote)) := by
  have hi : i ∈ allIds base locl remote := by
    rw [mem_allIds]
    exact Or.inl (mem_ids_of_jsGet hb)
  have hEq := @mergeId_eq_existing base locl remote i b hb
  constructor
  · rcases htomb with ⟨la, hla, hdla⟩ | ⟨ra, hra, hdra⟩
    · rw [hla] at hEq
      by_cases hrd : tsTruthy ((jsGet remote i).bind Account.deletedAt) = true
      · cases hrr : jsGet remote i with
        | none => rw [hrr] at hrd; simp at hrd
        | some ra =>
          rw [hrr] at hEq hrd
          simp only [Option.some_bind] at hrd
          rw [mergeExisting_del_both hdla hrd] at hEq
          by_cases hc : la.deletedAt.getD 0 > ra.deletedAt.getD 0
          · rw [if_pos hc] at hEq
            exact ⟨la, mem_merge_of_mergeId hi hEq, jsGet_id hla, hdla⟩
          · rw [if_neg hc] at hEq
            exact ⟨ra, mem_merge_of_mergeId hi hEq, jsGet_id hrr, hrd⟩
      · rw [mergeExisting_del_local_only hdla
          (Bool.not_eq_true _ ▸ hrd)] at hEq
        exact ⟨la, mem_merge_of_mergeId hi hEq, jsGet_id hla, hdla⟩
    · rw [hra] at hEq
      by_cases hld : tsTruthy ((jsGet locl i).bind Account.deletedAt) = true
      · cases hll : jsGet locl i with
        | none => rw [hll] at hld; simp at hld
        | some la =>
          rw [hll] at hEq hld
          simp only [Option.some_bind] at hld
          rw [mergeExisting_del_both hld hdra] at hEq
          by_cases hc : la.deletedAt.getD 0 > ra.deletedAt.getD 0
          · rw [if_pos hc] at hEq
            exact ⟨la, mem_merge_of_mergeId hi hEq, jsGet_id hll, hld⟩
          · rw [if_neg hc] at hEq
            exact ⟨ra, mem_merge_of_mergeId hi hEq, jsGet_id hra, hdra⟩
      · rw [mergeExisting_del_remote_only
          (Bool.not_eq_true _ ▸ hld) hdra] at hEq
        exact ⟨ra, mem_merge_of_mergeId hi hEq, jsGet_id hra, hdra⟩
  · intro la ra dl dr hla hra hdl hdr hdl0 hdr0
    rw [hla, hra] at hEq
    have htl : tsTruthy la.deletedAt = true := by simp [tsTruthy, hdl, hdl0]
    have htr : tsTruthy ra.deletedAt = true := by simp [tsTruthy, hdr, hdr0]
    rw [mergeExisting_del_both htl htr, hdl, hdr] at hEq
    constructor
    · intro hgt
      rw [if_pos (by simpa using hgt)] at hEq
      exact mem_merge_of_mergeId hi hEq
    · intro hgt
      rw [if_neg (by simp; omega)] at hEq
      exact mem_merge_of_mergeId hi hEq

theorem C1_deletion_overrides_witness :
    ∃ m, m ∈ mergeVault [mkAcc "a" 2 none] [mkAcc "a" 9 (some 9)]
        [mkAcc "a" 30 none] ∧ m.id = "a" ∧ tsTruthy m.deletedAt = true :=
  (C1_deletion_overrides [mkAcc "a" 2 none] [mkAcc "a" 9 (some 9)]
    [mkAcc "a" 30 none] "a" (mkAcc "a" 2 none) (by decide)
    (Or.inl ⟨mkAcc "a" 9 (some 9), by decide, by decide⟩)).1

/-- C4: last-writer-wins on pure edits.  For a record present in base,
local and remote with no tombstone on any side: if only one side's
`updatedAt` advanced past base's, the merge takes that side's record; if
both advanced, it takes the record with the strictly later `updatedAt`;
if neither advanced, it keeps the base record unchanged. -/
theorem C4_last_writer_wins (base locl remote : List Account) (i : String)
    (b la ra : Account)
    (hb : jsGet base i = some b) (hl : jsGet locl i = some la)
    (hr : jsGet remote i = some ra)
    (hdb : b.deletedAt = none) (hdl : la.deletedAt = none)
    (hdr : ra.deletedAt = none) :
    (la.updatedAt > b.updatedAt → ¬ ra.updatedAt > b.updatedAt →
        la ∈ mergeVault base locl remote) ∧
      (ra.updatedAt > b.updatedAt → ¬ la.updatedAt > b.updatedAt →
        ra ∈ mergeVault base locl remote) ∧
      (la.updatedAt > b.updatedAt → ra.updatedAt > b.updatedAt →
        (la.updatedAt > ra.updatedAt → la ∈ mergeVault base locl remote) ∧
          (ra.updatedAt > la.updatedAt →
            ra ∈ mergeVault base locl remote)) ∧
      (¬ la.updatedAt > b.updatedAt → ¬ ra.updatedAt > b.updatedAt →
        b ∈ mergeVault base locl remote) := by
  have hi : i ∈ allIds base locl remote := by
    rw [mem_allIds]
    exact Or.inl (mem_ids_of_jsGet hb)
  have hEq := @mergeId_eq_existing base locl remote i b hb
  rw [hl, hr, mergeExisting_mod (by simp [tsTruthy, hdl])
    (by simp [tsTruthy, hdr])] at hEq
  refine ⟨?_, ?_, ?_, ?_⟩
  · intro hla hra
    rw [jsOrTime_eq_of_gt hla] at hEq
    rw [if_neg (fun hc => jsOrTime_not_gt hra hc.2),
      if_pos hla] at hEq
    exact mem_merge_of_mergeId hi hEq
  · intro hra hla
    rw [jsOrTime_eq_of_gt hra] at hEq
    rw [if_neg (fun hc => jsOrTime_not_gt hla hc.1)] at hEq
    rw [if_neg (jsOrTime_not_gt hla), if_pos hra] at hEq
    exact mem_merge_of_mergeId hi hEq
  · intro hla hra
    rw [jsOrTime_eq_of_gt hla, jsOrTime_eq_of_gt hra] at hEq
    rw [if_pos ⟨hla, hra⟩] at hEq
    constructor
    · intro hcmp
      rw [if_pos hcmp] at hEq
      exact mem_merge_of_mergeId hi hEq
    · intro hcmp
      rw [if_neg (by omega)] at hEq
      exact mem_merge_of_mergeId hi hEq
  · intro hla hra
    rw [if_neg (fun hc => jsOrTime_not_gt hla hc.1),
      if_neg (jsOrTime_not_gt hla), if_neg (jsOrTime_not_gt hra)] at hEq
    exact mem_merge_of_mergeId hi hEq

theorem C4_last_writer_wins_witness :
    mkAcc "a" 4 none ∈
      mergeVault [mkAcc "a" 2 none] [mkAcc "a" 3 none] [mkAcc "a" 4 none] :=
  ((C4_last_writer_wins [mkAcc "a" 2 none] [mkAcc "a" 3 none]
    [mkAcc "a" 4 none] "a" (mkAcc "a" 2 none) (mkAcc "a" 3 none)
    (mkAcc "a" 4 none) (by decide) (by decide) (by decide) rfl rfl
    rfl).2.2.1 (by decide) (by decide)).2 (by decide)

theorem mergeId_eq_create {base locl remote : List Account} {i : String}
    (hb : jsGet base i = none) :
    mergeId base locl remote i =
      mergeCreate (jsGet locl i) (jsGet remote i) := by
  simp [mergeId, hb]

theorem jsOrTime_self (t : Nat) : jsOrTime (some t) t = t := by
  by_cases h : t = 0 <;> simp [jsOrTime, h]

theorem mergeExisting_none_none {b : Account} :
    mergeExisting b none none = none := by
  simp [mergeExisting]

theorem jsGet_filterMap (f : String → Option Account) :
    ∀ ids : List String, ids.Nodup →
      (∀ j m, f j = some m → m.id = j) →
      ∀ i, jsGet (ids.filterMap f) i =
        if i ∈ ids then f i else none := by
  intro ids
  induction ids with
  | nil => intro _ _ i; simp [jsGet]
  | cons j ids ih =>
    intro hnd hkey i
    rcases List.nodup_cons.mp hnd with ⟨hj, hnd'⟩
    have IH := ih hnd' hkey
    cases hfj : f j with
    | none =>
      simp only [List.filterMap_cons, hfj]
      rw [IH i]
      by_cases hij : i = j
      · subst hij
        simp [hj, hfj]
      · simp [List.mem_cons, hij]
    | some m =>
      have hmid : m.id = j := hkey j m hfj
      simp only [List.filterMap_cons, hfj, jsGet]
      rw [IH i]
      by_cases hij : i = j
      · subst hij
        rw [if_neg hj]
        simp [hmid, hfj]
      · by_cases hin : i ∈ ids
        · rw [if_pos hin]
          cases hfi : f i with
          | some r => simp [List.mem_cons, hin, hfi]
          | none =>
            simp [List.mem_cons, hin, hfi, hmid, Ne.symm hij]
        · rw [if_neg hin]
          simp [List.mem_cons, hij, hin, hmid, Ne.symm hij]

/-- C3 counterexample: a record created and tombstoned locally (absent
from base) is dropped by the creation branch, so
`mergeVault base local local` is not `local`. -/
theorem C3_counterexample :
    mergeVault [] [mkAcc "a" 5 (some 6)] [mkAcc "a" 5 (some 6)] ≠
      [mkAcc "a" 5 (some 6)] := by
  decide

/-- C3 (amended): `mergeVault base local local` agrees with `local` at
every identifier, provided (i) no record of local that is absent from base
carries a truthy tombstone (the creation branch drops fresh tombstones),
and (ii) every shared record either equals its base version, is
tombstoned, or strictly advanced its `updatedAt` past base's. -/
theorem C3_merge_idempotent_amended (base locl : List Account)
    (h3 : ∀ i a, jsGet locl i = some a → jsGet base i = none →
      tsTruthy a.deletedAt = false)
    (h4 : ∀ i a b, jsGet locl i = some a → jsGet base i = some b →
      a = b ∨ tsTruthy a.deletedAt = true ∨ a.updatedAt > b.updatedAt) :
    ∀ i, jsGet (mergeVault base locl locl) i = jsGet locl i := by
  intro i
  unfold mergeVault
  rw [jsGet_filterMap (mergeId base locl locl) (allIds base locl locl)
    (nodup_dedupFirstAux _ _) (fun j m h => mergeId_id h) i]
  by_cases hi : i ∈ allIds base locl locl
  · rw [if_pos hi]
    cases hbi : jsGet base i with
    | none =>
      rw [mergeId_eq_create hbi]
      cases hli : jsGet locl i with
      | none => rfl
      | some a =>
        have hd := h3 i a hli hbi
        simp [mergeCreate, hd]
    | some b =>
      rw [mergeId_eq_existing hbi]
      cases hli : jsGet locl i with
      | none => exact mergeExisting_none_none
      | some a =>
        rcases h4 i a b hli hbi with hab | htomb | hup
        · subst hab
          by_cases hd : tsTruthy a.deletedAt = true
          · rw [mergeExisting_del_both hd hd, if_neg (lt_irrefl _)]
          · have hd' := Bool.not_eq_true _ ▸ hd
            rw [mergeExisting_mod hd' hd', jsOrTime_self]
            rw [if_neg (fun hc => lt_irrefl _ hc.1),
              if_neg (lt_irrefl _), if_neg (lt_irrefl _)]
        · rw [mergeExisting_del_both htomb htomb, if_neg (lt_irrefl _)]
        · by_cases hd : tsTruthy a.deletedAt = true
          · rw [mergeExisting_del_both hd hd, if_neg (lt_irrefl _)]
          · have hd' := Bool.not_eq_true _ ▸ hd
            rw [mergeExisting_mod hd' hd', jsOrTime_eq_of_gt hup]
            rw [if_pos ⟨hup, hup⟩, if_neg (lt_irrefl _)]
  · rw [if_neg hi]
    cases hli : jsGet locl i with
    | none => rfl
    | some a =>
      exact absurd
        (mem_allIds.mpr (Or.inr (Or.inl (mem_ids_of_jsGet hli)))) hi

theorem C3_merge_idempotent_amended_witness :
    jsGet (mergeVault [mkAcc "a" 2 none] [mkAcc "a" 3 none]
      [mkAcc "a" 3 none]) "a" = jsGet [mkAcc "a" 3 none] "a" := by
  apply C3_merge_idempotent_amended
  · intro i a hla hba
    have hm := jsGet_mem hla
    simp at hm
    subst hm
    rfl
  · intro i a b hla hba
    have hm := jsGet_mem hla
    simp at hm
    subst hm
    have hmb := jsGet_mem hba
    simp at hmb
    subst hmb
    exact Or.inr (Or.inr (by decide))

/-- JavaScript truthiness of an optional string (`undefined` and `""`
falsy). -/
def strTruthy : Option String → Bool
  | none => false
  | some s => s != ""

/-- A row of the `vault` table (`src/lib/server/db/schema`): the encrypted
blob, the OCC version and the recovery-wrapped DEK. -/
structure VaultRow where
  encryptedBlob : String
  version : Nat
  encryptedDekByRecoveryKey : String
deriving DecidableEq, Repr

/-- Outcome of the vault PUT endpoint: 200 with the new version, 400
(missing fields / bad creation version), or 412 (version conflict). -/
inductive PutResult where
  | ok (version : Nat)
  | badRequest
  | conflict
deriving DecidableEq, Repr

/-- The vault `PUT` route handler (`src/routes/api/vault/+server.ts`),
restricted to the authenticated user's single vault row; returns the
response together with the store contents after the transaction. -/
def PUT (store : Option VaultRow) (encryptedBlob : String) (version : Nat)
    (encryptedDekByRecoveryKey : Option String) :
    PutResult × Option VaultRow :=
  if encryptedBlob = "" then (PutResult.badRequest, store)
  else
    match store with
    | none =>
      if version ≠ 0 then (PutResult.badRequest, store)
      else if strTruthy encryptedDekByRecoveryKey = false then
        (PutResult.badRequest, store)
      else
        (PutResult.ok 1,
          some ⟨encryptedBlob, 1, encryptedDekByRecoveryKey.getD ""⟩)
    | some cur =>
      if cur.version ≠ version then (PutResult.conflict, store)
      else
        (PutResult.ok (version + 1),
          some ⟨encryptedBlob, version + 1,
            if strTruthy encryptedDekByRecoveryKey then
              encryptedDekByRecoveryKey.getD ""
            else cur.encryptedDekByRecoveryKey⟩)

/-- C2: optimistic concurrency control.  For an existing stored vault, a
PUT whose submitted version differs from the stored version is rejected
with the version-conflict status and leaves the store untouched; every
accepted write stores exactly the previous version plus 1 and returns that
new version. -/
theorem C2_occ_put (store : Option VaultRow) (row : VaultRow)
    (blob : String) (version : Nat) (rk : Option String)
    (hrow : store = some row) :
    (blob ≠ "" → version ≠ row.version →
        PUT store blob version rk = (PutResult.conflict, store)) ∧
      (∀ v st, PUT store blob version rk = (PutResult.ok v, st) →
        v = row.version + 1 ∧
          ∃ row2, st = some row2 ∧ row2.version = row.version + 1 ∧
            row2.encryptedBlob = blob) := by
  subst hrow
  constructor
  · intro hb hv
    simp [PUT, hb, Ne.symm hv]
  · intro v st h
    by_cases hb : blob = ""
    · simp [PUT, hb] at h
    · by_cases hv : row.version ≠ version
      · simp [PUT, hb, hv] at h
      · push_neg at hv
        simp [PUT, hb, hv] at h
        obtain ⟨hv1, hst⟩ := h
        refine ⟨by omega, ⟨blob, version + 1,
          if strTruthy rk = true then rk.getD ""
          else row.encryptedDekByRecoveryKey⟩, hst.symm, by simp [hv], rfl⟩

theorem C2_occ_put_witness :
    PUT (some ⟨"b0", 3, "rk"⟩) "b1" 7 none =
        (PutResult.conflict, some ⟨"b0", 3, "rk"⟩) ∧
      (4 = 3 + 1 ∧
        ∃ row2, some (⟨"b1", 4, "rk"⟩ : VaultRow) = some row2 ∧
          row2.version = 3 + 1 ∧ row2.encryptedBlob = "b1") :=
  ⟨(C2_occ_put (some ⟨"b0", 3, "rk"⟩) ⟨"b0", 3, "rk"⟩ "b1" 7 none rfl).1
      (by decide) (by decide),
    (C2_occ_put (some ⟨"b0", 3, "rk"⟩) ⟨"b0", 3, "rk"⟩ "b1" 3 none rfl).2
      4 (some ⟨"b1", 4, "rk"⟩) (by decide)⟩

/-- Synchronization-engine state relevant to conflict handling
(`vaultState` in `src/lib/stores/vault.svelte.ts`). -/
structure EngineState where
  accounts : List Account
  baseSnapshot : List Account
  lastVersion : Nat
deriving DecidableEq, Repr

/-- What `handleConflict` does with the merge result: adopt the remote
ciphertext directly, or re-encrypt and push the merged set. -/
inductive ConflictAction where
  | adoptRemote
  | pushMerged
deriving DecidableEq, Repr

/-- Core decision of `handleConflict` (`src/lib/stores/vault.svelte.ts`),
after the remote blob has been fetched and successfully decrypted to
`remoteAccounts`.  `JSON.stringify` equality on account arrays coincides
with structural list equality in this model.  The IndexedDB writes and the
recursive sync of `saveVault` are outside the model; the action records
which branch runs. -/
def handleConflict (st : EngineState) (remoteAccounts : List Account)
    (remoteVersion : Nat) : ConflictAction × EngineState :=
  let merged := mergeVault st.baseSnapshot st.accounts remoteAccounts
  let hadLocalChanges := st.accounts ≠ st.baseSnapshot
  (if hadLocalChanges then ConflictAction.pushMerged
    else ConflictAction.adoptRemote,
    { accounts := merged, baseSnapshot := merged,
      lastVersion := remoteVersion })

/-- C5 counterexample: with no local changes the engine adopts the remote
ciphertext even though the merge result (which drops a fresh remote
tombstone) is not equal to the remote set — so adoption is not governed by
merge-result-equals-remote. -/
theorem C5_counterexample :
    (handleConflict ⟨[], [], 0⟩ [mkAcc "a" 5 (some 6)] 1).1 =
        ConflictAction.adoptRemote ∧
      mergeVault [] [] [mkAcc "a" 5 (some 6)] ≠ [mkAcc "a" 5 (some 6)] := by
  decide

/-- C5 (amended): during conflict handling the engine adopts the remote
ciphertext without a new write exactly when the local set equals the base
snapshot before the merge; in every other case it re-encrypts and pushes.
Either way the new local set and base snapshot are the merge result and
the local version becomes the remote version. -/
theorem C5_conflict_adoption_amended (st : EngineState)
    (remoteAccounts : List Account) (v : Nat) :
    ((handleConflict st remoteAccounts v).1 = ConflictAction.adoptRemote ↔
        st.accounts = st.baseSnapshot) ∧
      (handleConflict st remoteAccounts v).2 =
        ⟨mergeVault st.baseSnapshot st.accounts remoteAccounts,
          mergeVault st.baseSnapshot st.accounts remoteAccounts, v⟩ := by
  unfold handleConflict
  by_cases h : st.accounts = st.baseSnapshot <;> simp [h]

theorem C5_conflict_adoption_amended_witness :
    ((handleConflict ⟨[], [], 0⟩ [mkAcc "a" 5 (some 6)] 1).1 =
        ConflictAction.adoptRemote ↔
      (⟨[], [], 0⟩ : EngineState).accounts =
        (⟨[], [], 0⟩ : EngineState).baseSnapshot) :=
  (C5_conflict_adoption_amended ⟨[], [], 0⟩ [mkAcc "a" 5 (some 6)] 1).1

/-- The `iv`/`ct` pair of an encrypted vault blob
(`EncryptedPayload` in `src/lib/crypto/prf.ts`), Base64 strings. -/
structure EncryptedPayload where
  iv : String
  ct : String
deriving DecidableEq, Repr

/-- The single generic message thrown by `decryptVault` for every failure
cause. -/
def decryptionFailedMsg : String :=
  "Decryption failed. Invalid key or corrupted data."

/-- `decryptVault(payload, dek)` (`src/lib/crypto/prf.ts`).  `b64` models
`base64ToBuffer` (throw on malformed input becomes `none`); `aead` models
`crypto.subtle.decrypt` with AES-GCM under key `dek` (authentication
failure, e.g. wrong key or any tampered bit of nonce or ciphertext,
becomes `none`).  The whole pipeline runs inside one try-block whose catch
replaces every exception by the single generic error. -/
def decryptVault {Key : Type} (b64 : String → Option (List Nat))
    (aead : Key → List Nat → List Nat → Option String)
    (payload : EncryptedPayload) (dek : Key) : Except String String :=
  match b64 payload.iv with
  | none => Except.error decryptionFailedMsg
  | some iv =>
    match b64 payload.ct with
    | none => Except.error decryptionFailedMsg
    | some ct =>
      match aead dek iv ct with
      | none => Except.error decryptionFailedMsg
      | some plaintext => Except.ok plaintext

/-- C6: on any failure (malformed base64, wrong key, tampered nonce or
ciphertext — i.e. AEAD verification failure) `decryptVault` fails with the
one generic error, identical for every cause; and it succeeds only when
the AEAD primitive verified, returning exactly its output (never wrong
output). -/
theorem C6_decrypt_generic_failure {Key : Type}
    (b64 : String → Option (List Nat))
    (aead : Key → List Nat → List Nat → Option String)
    (payload : EncryptedPayload) (dek : Key) :
    (∀ e, decryptVault b64 aead payload dek = Except.error e →
        e = decryptionFailedMsg) ∧
      (∀ s, decryptVault b64 aead payload dek = Except.ok s →
        ∃ iv ct, b64 payload.iv = some iv ∧ b64 payload.ct = some ct ∧
          aead dek iv ct = some s) ∧
      (∀ iv ct, b64 payload.iv = some iv → b64 payload.ct = some ct →
        aead dek iv ct = none →
        decryptVault b64 aead payload dek =
          Except.error decryptionFailedMsg) := by
  refine ⟨?_, ?_, ?_⟩
  · intro e h
    unfold decryptVault at h
    cases hiv : b64 payload.iv with
    | none => simp only [hiv] at h; cases h; rfl
    | some iv =>
      simp only [hiv] at h
      cases hct : b64 payload.ct with
      | none => simp only [hct] at h; cases h; rfl
      | some ct =>
        simp only [hct] at h
        cases ha : aead dek iv ct with
        | none => simp only [ha] at h; cases h; rfl
        | some s => simp only [ha] at h; cases h
  · intro s h
    unfold decryptVault at h
    cases hiv : b64 payload.iv with
    | none => simp only [hiv] at h; cases h
    | some iv =>
      simp only [hiv] at h
      cases hct : b64 payload.ct with
      | none => simp only [hct] at h; cases h
      | some ct =>
        simp only [hct] at h
        cases ha : aead dek iv ct with
        | none => simp only [ha] at h; cases h
        | some s2 =>
          simp only [ha] at h
          cases h
          exact ⟨iv, ct, rfl, rfl, ha⟩
  · intro iv ct hiv hct ha
    unfold decryptVault
    simp only [hiv, hct, ha]

theorem C6_decrypt_generic_failure_witness :
    decryptVault (fun _ => some []) (fun (_ : Unit) _ _ => none)
        ⟨"iv", "ct"⟩ () = Except.error decryptionFailedMsg :=
  (C6_decrypt_generic_failure (fun _ => some [])
    (fun (_ : Unit) _ _ => none) ⟨"iv", "ct"⟩ ()).2.2 [] [] rfl rfl rfl

/-- The crypto engine's state (`cryptoState` plus the module-level
`lockPaused` flag in `src/lib/stores/crypto.svelte.ts`).  The DEK is an
abstract key id. -/
structure CryptoEngine where
  isUnlocked : Bool
  dek : Option Nat
  lockPaused : Bool
deriving DecidableEq, Repr

/-- `lock()` (`src/lib/stores/crypto.svelte.ts`): returns immediately when
auto-lock is paused; otherwise clears the DEK reference and marks the
engine locked (listener cleanup is outside the state model). -/
def lock (s : CryptoEngine) : CryptoEngine :=
  if s.lockPaused then s
  else { s with dek := none, isUnlocked := false }

/-- `pauseAutoLock()`: sets the pause flag (and clears the timer). -/
def pauseAutoLock (s : CryptoEngine) : CryptoEngine :=
  { s with lockPaused := true }

/-- The state effect of `unlock(masterPassword)` when a local vault blob
exists: the DEK is derived, then verified by `decryptVault`; only on
success is it installed and the engine marked unlocked; on failure (the
catch-branch) only the error message is set and `false` returned — the
state fields are untouched. -/
def unlock (s : CryptoEngine) (dek : Nat) (decryptOk : Bool) :
    Bool × CryptoEngine :=
  if decryptOk then (true, { s with dek := some dek, isUnlocked := true })
  else (false, s)

/-- The catch-branch of `loadVault` (`src/lib/stores/vault.svelte.ts`)
when decrypting the local blob fails: it calls `cryptoLock()` to re-lock
immediately. -/
def loadVaultFailure (s : CryptoEngine) : CryptoEngine := lock s

/-- C7 counterexample: if auto-lock is paused, the re-lock on a
decryption failure in `loadVault` is a no-op, leaving the engine unlocked
and still holding the key. -/
theorem C7_counterexample :
    (loadVaultFailure ⟨true, some 7, true⟩).isUnlocked = true ∧
      (loadVaultFailure ⟨true, some 7, true⟩).dek = some 7 := by
  decide

/-- C7 (amended): a decryption failure during `unlock` leaves the state
unchanged and never installs the failed key — so an engine that was locked
stays locked with a null DEK — and the failure path of `loadVault`
re-locks (DEK null, locked) provided auto-lock is not paused; when paused
the re-lock is skipped. -/
theorem C7_decrypt_failure_relock (s : CryptoEngine) (k : Nat) :
    ((unlock s k false).2 = s ∧ (unlock s k false).1 = false) ∧
      (s.isUnlocked = false → s.dek = none →
        (unlock s k false).2.isUnlocked = false ∧
          (unlock s k false).2.dek = none) ∧
      (s.lockPaused = false →
        (loadVaultFailure s).isUnlocked = false ∧
          (loadVaultFailure s).dek = none) := by
  refine ⟨⟨rfl, rfl⟩, fun h1 h2 => ⟨h1, h2⟩, fun hp => ?_⟩
  simp [loadVaultFailure, lock, hp]

theorem C7_decrypt_failure_relock_witness :
    ((unlock ⟨false, none, false⟩ 1 false).2.isUnlocked = false ∧
        (unlock ⟨false, none, false⟩ 1 false).2.dek = none) ∧
      ((loadVaultFailure ⟨false, none, false⟩).isUnlocked = false ∧
        (loadVaultFailure ⟨false, none, false⟩).dek = none) :=
  ⟨(C7_decrypt_failure_relock ⟨false, none, false⟩ 1).2.1 rfl rfl,
    (C7_decrypt_failure_relock ⟨false, none, false⟩ 1).2.2 rfl⟩

/-- C8 counterexample: when auto-lock has been paused, `lock()` returns
immediately — the DEK stays in memory and the engine stays unlocked. -/
theorem C8_counterexample :
    (lock ⟨true, some 5, true⟩).dek = some 5 ∧
      (lock ⟨true, some 5, true⟩).isUnlocked = true := by
  decide

/-- C8 (amended): `lock()` clears the in-memory DEK and marks the engine
locked whenever auto-lock is not paused; when auto-lock has been paused,
`lock()` leaves the whole state unchanged. -/
theorem C8_lock_clears_dek (s : CryptoEngine) :
    (s.lockPaused = false →
        (lock s).dek = none ∧ (lock s).isUnlocked = false) ∧
      (s.lockPaused = true → lock s = s) := by
  cases hp : s.lockPaused <;> simp [lock, hp]

theorem C8_lock_clears_dek_witness :
    (lock ⟨true, some 1, false⟩).dek = none ∧
      (lock ⟨true, some 1, false⟩).isUnlocked = false :=
  (C8_lock_clears_dek ⟨true, some 1, false⟩).1 rfl

/-- A row of the `user` table as used by the recovery lookup: user id,
data salt and KDF iteration count. -/
structure UserRow where
  id : String
  dataSalt : String
  kdfIterations : Nat
deriving DecidableEq, Repr

/-- The JSON body returned by the recovery lookup for both real and fake
responses — the same four fields in both cases. -/
structure RecoveryLookupResponse where
  encryptedBlob : String
  encryptedDekByRecoveryKey : String
  dataSalt : String
  kdfIterations : Nat
deriving DecidableEq, Repr

/-- Result of the recovery lookup endpoint: a 200 body or an HTTP error
status. -/
inductive LookupResult where
  | ok (r : RecoveryLookupResponse)
  | err (status : Nat)
deriving DecidableEq, Repr

/-- The `GET` handler of `src/routes/api/vault/recovery-reset/+server.ts`.
`hmacHex m` and `hmacB64 m` model
createHmac("sha256", secret).update(m).digest("hex" / "base64") — pure
functions of the fixed server secret and the message.  `users` is lookup
by normalized email, `vaults` lookup by user id. -/
def recoveryLookupGET (secret : String) (hmacHex hmacB64 : String → String)
    (users : String → Option UserRow) (vaults : String → Option VaultRow)
    (rawEmail : Option String) : LookupResult :=
  match rawEmail with
  | none => LookupResult.err 400
  | some raw =>
    if raw = "" then LookupResult.err 400
    else
      let email := raw.trim.toLower
      match users email with
      | some u =>
        match vaults u.id with
        | none => LookupResult.err 404
        | some v =>
          LookupResult.ok ⟨v.encryptedBlob, v.encryptedDekByRecoveryKey,
            u.dataSalt, u.kdfIterations⟩
      | none =>
        if secret = "" then LookupResult.err 500
        else
          let fakeDataSalt := hmacHex (email ++ "data_salt")
          let fakeIv := (hmacB64 (email ++ "fake_iv")).take 16
          let fakeCt := hmacB64 (email ++ "fake_ct")
          let fakeBlob := "v=1;iv=" ++ fakeIv ++ ";ct=" ++ fakeCt
          LookupResult.ok ⟨fakeBlob, fakeBlob, fakeDataSalt, 600000⟩

/-- C9: anti-enumeration.  For an email that matches no user, the recovery
lookup returns an `ok` response with the same structure as a real one
(encryptedBlob, encryptedDekByRecoveryKey, dataSalt, kdfIterations)
rather than an error, and the response is a pure function of the email
and the server secret (identical across requests, independent of the rest
of the store). -/
theorem C9_anti_enumeration (secret : String)
    (hmacHex hmacB64 : String → String)
    (users1 users2 : String → Option UserRow)
    (vaults1 vaults2 : String → Option VaultRow) (raw : String)
    (hne : raw ≠ "") (hs : secret ≠ "")
    (h1 : users1 (raw.trim.toLower) = none)
    (h2 : users2 (raw.trim.toLower) = none) :
    (∃ resp, recoveryLookupGET secret hmacHex hmacB64 users1 vaults1
        (some raw) = LookupResult.ok resp) ∧
      recoveryLookupGET secret hmacHex hmacB64 users1 vaults1 (some raw) =
        recoveryLookupGET secret hmacHex hmacB64 users2 vaults2
          (some raw) := by
  unfold recoveryLookupGET
  simp only [if_neg hne, h1, h2, if_neg hs]
  exact ⟨⟨_, rfl⟩, trivial⟩

theorem C9_anti_enumeration_witness :
    (∃ resp, recoveryLookupGET "sec" (fun m => m) (fun m => m)
        (fun _ => none) (fun _ => none) (some "A@x.com") =
          LookupResult.ok resp) ∧
      recoveryLookupGET "sec" (fun m => m) (fun m => m)
          (fun _ => none) (fun _ => none) (some "A@x.com") =
        recoveryLookupGET "sec" (fun m => m) (fun m => m)
          (fun _ => none) (fun _ => none) (some "A@x.com") :=
  C9_anti_enumeration "sec" (fun m => m) (fun m => m)
    (fun _ => none) (fun _ => none) (fun _ => none) (fun _ => none)
    "A@x.com" (by decide) (by decide) rfl rfl
